import Mathlib

/-!
Verification of the acvm-backend-barretenberg core: the black-box opcode
resolver (`solve_black_box_function_call` and `calculate_merkle_root` in
`acvm_backend_barretenberg/src/acvm_interop/pwg.rs`) and the witness
flattening / field-chunk encoding logic of the backend-compiler bridge
(`src/acvm_interop/proof_system.rs`).

The `FieldElement` primitives (big-endian byte serialization, bit
decomposition, modular reduction from bytes, low-byte truncation) live in
the external `acvm` crate, not in this repository; they are modelled from
the specification's description of the Field/Witness primitives component.
External cryptographic primitives (pedersen compression, schnorr
verification, the blake2s digest, the delegated acvm solvers for
SHA256/Blake2s/ECDSA/logic/range opcodes) are abstracted as parameters of
an `Engine` structure.

Rust panics (`expect`, `unwrap`, `assert_eq!`, out-of-bounds indexing) are
modelled as the `none` result of an `Option`-valued function: a panic
aborts the process, so no witness map survives it.  Returning
`some (m, Except.error e)` models an ordinary `Err` return with the map in
state `m`; `some (m, Except.ok r)` models `Ok(r)`.
-/

/-- The prime order of the scalar field used by the backend (BN254). -/
def p : Nat := 21888242871839275222246405745257275088548364400416034343698204186575808495617

theorem p_pos : 0 < p := by decide

/-- Modelled from the spec: a field element is a fixed-width integer modulo
a large prime. -/
def F : Type := Fin p

instance : DecidableEq F := fun a b => decEq (α := Fin p) a b

/-- Reduce a natural number into the field. -/
def mkF (n : Nat) : F := ⟨n % p, Nat.mod_lt n p_pos⟩

/-- The field additive identity. -/
def fZero : F := mkF 0

/-- The field multiplicative identity. -/
def fOne : F := mkF 1

/-- Big-endian base-256 digits of `v`, padded/truncated to `len` bytes. -/
def natToBE : Nat → Nat → List Nat
  | 0, _ => []
  | n + 1, v => natToBE n (v / 256) ++ [v % 256]

/-- Big-endian base-2 digits of `v`, padded/truncated to `len` bits. -/
def natToBits : Nat → Nat → List Bool
  | 0, _ => []
  | n + 1, v => natToBits n (v / 2) ++ [decide (v % 2 = 1)]

/-- The natural number denoted by a big-endian byte string. -/
def beNat (bs : List Nat) : Nat := bs.foldl (fun acc b => 256 * acc + b) 0

theorem natToBE_length (n v : Nat) : (natToBE n v).length = n := by
  induction n generalizing v with
  | zero => rfl
  | succ k ih => simp [natToBE, ih]

theorem natToBits_length (n v : Nat) : (natToBits n v).length = n := by
  induction n generalizing v with
  | zero => rfl
  | succ k ih => simp [natToBits, ih]

namespace FieldElement

/-- Modelled from the spec: canonical big-endian byte form of a field
element, fixed at 32 bytes. -/
def to_be_bytes (x : F) : List Nat := natToBE 32 x.val

/-- Modelled from the spec: the bit decomposition of a field element,
most-significant bit first, one bit per bit of the 32-byte form. -/
def bits (x : F) : List Bool := natToBits 256 x.val

/-- Modelled from the spec: reduce an arbitrary-length big-endian byte
string modulo the field order. -/
def from_be_bytes_reduce (bs : List Nat) : F := mkF (beNat bs)

/-- Modelled from the spec: truncate the byte representation to the
nearest whole number of bytes containing the declared bit width (the
least-significant bytes of the big-endian form). -/
def fetch_nearest_bytes (x : F) (num_bits : Nat) : List Nat :=
  (to_be_bytes x).drop (32 - (num_bits + 7) / 8)

theorem to_be_bytes_length (x : F) : (to_be_bytes x).length = 32 :=
  natToBE_length 32 x.val

theorem bits_length (x : F) : (bits x).length = 256 :=
  natToBits_length 256 x.val

end FieldElement

/-! ## The partial witness map

`BTreeMap<Witness, FieldElement>` is modelled as an association list with
strictly ascending keys; `wmInsert` is ordered insertion, so iteration
order (`into_values`) is ascending key order, as for the Rust `BTreeMap`.
A `Witness` is its index, a natural number. -/

/-- The partial witness map: association list from witness index to field
element, kept with strictly ascending keys. -/
abbrev WMap : Type := List (Nat × F)

/-- The empty map. -/
def wmEmpty : WMap := []

/-- Rust `BTreeMap::get`. -/
def wmGet : WMap → Nat → Option F
  | [], _ => none
  | (k, v) :: rest, w => if w = k then some v else wmGet rest w

/-- Rust `BTreeMap::insert` (ordered insertion; replaces an equal key). -/
def wmInsert (w : Nat) (v : F) : WMap → WMap
  | [] => [(w, v)]
  | (k, x) :: rest =>
    if w < k then (w, v) :: (k, x) :: rest
    else if w = k then (w, v) :: rest
    else (k, x) :: wmInsert w v rest

/-- Rust `BTreeMap::into_values`: the values in iteration (key) order. -/
def wmValues (m : WMap) : List F := m.map Prod.snd

/-- The keys of the map in iteration order. -/
def wmKeys (m : WMap) : List Nat := m.map Prod.fst

/-- The representation invariant: keys strictly ascending. -/
def KeysSorted (m : WMap) : Prop := List.Pairwise (fun a b => a.1 < b.1) m

theorem keysSorted_empty : KeysSorted wmEmpty := List.Pairwise.nil

theorem wmInsert_mem {w : Nat} {v : F} {m : WMap} {q : Nat × F}
    (hq : q ∈ wmInsert w v m) : q = (w, v) ∨ q ∈ m := by
  induction m with
  | nil =>
    simp only [wmInsert, List.mem_singleton] at hq
    exact Or.inl hq
  | cons a rest ih =>
    obtain ⟨k, x⟩ := a
    simp only [wmInsert] at hq
    by_cases h1 : w < k
    · simp only [h1, if_pos, List.mem_cons] at hq
      rcases hq with h | h | h
      · exact Or.inl h
      · exact Or.inr (List.mem_cons.mpr (Or.inl h))
      · exact Or.inr (List.mem_cons.mpr (Or.inr h))
    · by_cases h2 : w = k
      · simp only [if_neg h1, if_pos h2, List.mem_cons] at hq
        rcases hq with h | h
        · exact Or.inl h
        · exact Or.inr (List.mem_cons.mpr (Or.inr h))
      · simp only [if_neg h1, if_neg h2, List.mem_cons] at hq
        rcases hq with h | h
        · exact Or.inr (List.mem_cons.mpr (Or.inl h))
        · rcases ih h with h' | h'
          · exact Or.inl h'
          · exact Or.inr (List.mem_cons.mpr (Or.inr h'))

/-- Ordered insertion preserves the strictly-ascending-keys invariant. -/
theorem keysSorted_insert {m : WMap} (h : KeysSorted m) (w : Nat) (v : F) :
    KeysSorted (wmInsert w v m) := by
  induction m with
  | nil => exact List.pairwise_singleton _ _
  | cons a rest ih =>
    obtain ⟨k, x⟩ := a
    rcases h with _ | ⟨ha, hrest⟩
    simp only [wmInsert]
    by_cases h1 : w < k
    · simp only [h1, if_pos]
      exact List.Pairwise.cons
        (by
          intro q hq
          rcases List.mem_cons.mp hq with h | h
          · simpa [h] using h1
          · exact lt_trans h1 (ha q h))
        (List.Pairwise.cons ha hrest)
    · by_cases h2 : w = k
      · simp only [if_neg h1, if_pos h2]
        exact List.Pairwise.cons (fun q hq => h2 ▸ ha q hq) hrest
      · simp only [if_neg h1, if_neg h2]
        have haw : k < w := by omega
        exact List.Pairwise.cons
          (by
            intro q hq
            rcases wmInsert_mem hq with h' | h'
            · simp [h', haw]
            · exact ha q h')
          (ih hrest)

/-! ## The black-box opcode data model

The two source files are pinned against two revisions of the `acvm` crate
whose `BlackBoxFunc` enumerations differ: the resolver
(`pwg.rs`) sees a kind `MerkleMembership`, while the bridge
(`proof_system.rs`) sees the same kind under its later name
`ComputeMerkleRoot` together with the additional kind `VerifyProof`.  Both
enumerations are embedded, with the renaming made explicit. -/

/-- The black-box operation kinds as seen by the resolver (`pwg.rs`). -/
inductive BlackBoxFunc : Type
  | AES
  | AND
  | XOR
  | RANGE
  | SHA256
  | Blake2s
  | MerkleMembership
  | SchnorrVerify
  | Pedersen
  | HashToField128Security
  | EcdsaSecp256k1
  | FixedBaseScalarMul
  | Keccak256
deriving DecidableEq

/-- The black-box operation kinds as seen by the bridge
(`proof_system.rs`): `MerkleMembership` renamed to `ComputeMerkleRoot`,
plus `VerifyProof`. -/
inductive BlackBoxFuncPS : Type
  | AES
  | AND
  | XOR
  | RANGE
  | SHA256
  | Blake2s
  | ComputeMerkleRoot
  | SchnorrVerify
  | Pedersen
  | HashToField128Security
  | EcdsaSecp256k1
  | FixedBaseScalarMul
  | Keccak256
  | VerifyProof
deriving DecidableEq

/-- The renaming of resolver-side kinds into bridge-side kinds. -/
def corr : BlackBoxFunc → BlackBoxFuncPS
  | .AES => .AES
  | .AND => .AND
  | .XOR => .XOR
  | .RANGE => .RANGE
  | .SHA256 => .SHA256
  | .Blake2s => .Blake2s
  | .MerkleMembership => .ComputeMerkleRoot
  | .SchnorrVerify => .SchnorrVerify
  | .Pedersen => .Pedersen
  | .HashToField128Security => .HashToField128Security
  | .EcdsaSecp256k1 => .EcdsaSecp256k1
  | .FixedBaseScalarMul => .FixedBaseScalarMul
  | .Keccak256 => .Keccak256

/-- One input operand of a black-box call: a witness index together with
its declared bit width. -/
structure FunctionInput : Type where
  witness : Nat
  num_bits : Nat
deriving DecidableEq

/-- A black-box call descriptor: operation kind, ordered inputs, ordered
output witness slots. -/
structure BlackBoxFuncCall : Type where
  name : BlackBoxFunc
  inputs : List FunctionInput
  outputs : List Nat
deriving DecidableEq

/-- The error taxonomy.  `UnsupportedBlackBoxFunc` is the variant the
resolver itself produces; `UnresolvedOperand` models the
missing-assignment error of `witness_to_value`; `MalformedOperandCount`
and `EngineFailure` are the remaining spec taxonomy variants (available to
the delegated solvers, never produced by the code under `pwg.rs`). -/
inductive OpcodeResolutionError : Type
  | UnsupportedBlackBoxFunc (f : BlackBoxFunc)
  | UnresolvedOperand (w : Nat)
  | MalformedOperandCount (f : BlackBoxFunc) (expected got : Nat)
  | EngineFailure (detail : Nat)
deriving DecidableEq

/-- The success value of one opcode resolution. -/
inductive OpcodeResolution : Type
  | Solved
deriving DecidableEq

/-- The outcome of resolving one call: `none` models a Rust panic
(process abort, no witness map survives); `some (m, r)` models an ordinary
return with the map in state `m`. -/
abbrev SolveResult : Type := Option (WMap × Except OpcodeResolutionError OpcodeResolution)

/-- The outcome of a delegated acvm solver (its `Ok` payload is
discarded by the resolver, so it is modelled as `Unit`). -/
abbrev DelegateResult : Type := Option (WMap × Except OpcodeResolutionError Unit)

/-- One delegated acvm solver (SHA256/Blake2s/ECDSA/logic/range): a state
transformer on the witness map that may error or panic. -/
abbrev Delegate : Type := WMap → BlackBoxFuncCall → DelegateResult

/-- The external cryptographic/proving engine and the delegated acvm
solvers, abstracted as parameters (they are outside this repository). -/
structure Engine : Type where
  compress_native : F → F → F
  verify_signature : List Nat → List Nat → List Nat → Bool
  encrypt : List F → F × F
  fixed_base : F → F × F
  blake2s_digest : List Nat → List Nat
  sha256_solver : Delegate
  blake2s_solver : Delegate
  ecdsa_solver : Delegate
  logic_solver : Delegate
  range_solver : Delegate

/-! ## Operand reading -/

/-- The `witness_to_value` helper: read one operand witness, failing when it has no
assignment yet. -/
def witness_to_value (m : WMap) (w : Nat) : Except OpcodeResolutionError F :=
  match wmGet m w with
  | some v => .ok v
  | none => .error (.UnresolvedOperand w)

/-- Read a list of operand witnesses in order, stopping at the first
unresolved one. -/
def readValues (m : WMap) : List FunctionInput → Except OpcodeResolutionError (List F)
  | [] => .ok []
  | i :: rest =>
    match witness_to_value m i.witness with
    | .error e => .error e
    | .ok v =>
      match readValues m rest with
      | .error e => .error e
      | .ok vs => .ok (v :: vs)

/-- The low byte of a field element: the last byte of its big-endian
form (`*sig_i.to_be_bytes().last().unwrap()`). -/
def lowByte (v : F) : Nat := (FieldElement.to_be_bytes v).getLastD 0

/-- Read a list of operand witnesses in order, keeping only the low byte
of each value. -/
def readLowBytes (m : WMap) : List FunctionInput → Except OpcodeResolutionError (List Nat)
  | [] => .ok []
  | i :: rest =>
    match witness_to_value m i.witness with
    | .error e => .error e
    | .ok v =>
      match readLowBytes m rest with
      | .error e => .error e
      | .ok bs => .ok (lowByte v :: bs)

/-- Read the operands of a `HashToField128Security` call in order,
truncating each value to the nearest whole number of bytes containing its
declared bit width and concatenating the byte strings (the streaming
digest input). -/
def readHtfBytes (m : WMap) : List FunctionInput → Except OpcodeResolutionError (List Nat)
  | [] => .ok []
  | i :: rest =>
    match witness_to_value m i.witness with
    | .error e => .error e
    | .ok v =>
      match readHtfBytes m rest with
      | .error e => .error e
      | .ok bs => .ok (FieldElement.fetch_nearest_bytes v i.num_bits ++ bs)

/-! ## The Merkle authentication-path verifier (`pwg.rs`) -/

/-- The loop of `calculate_merkle_root`: walk the hash path with a level
counter, indexing into the reversed bit decomposition of the leaf index.
An out-of-bounds bit access (`index_bits[i]`) is a panic, hence `none`. -/
def merkleLoop (hash_func : F → F → F) (index_bits : List Bool) :
    List F → Nat → F → Option F
  | [], _, current => some current
  | path_elem :: rest, i, current =>
    match index_bits[i]? with
    | none => none
    | some path_bit =>
      merkleLoop hash_func index_bits rest (i + 1)
        (if !path_bit then hash_func current path_elem else hash_func path_elem current)

/-- The function `calculate_merkle_root`: recompute a Merkle root from a leaf, its
index and an authentication path, using a pluggable compression
function. -/
def calculate_merkle_root (hash_func : F → F → F) (hash_path : List F)
    (index : F) (leaf : F) : Option F :=
  merkleLoop hash_func (FieldElement.bits index).reverse hash_path 0 leaf

/-- Modelled from the spec: `recomputeRoot` as §4.2 words it — pair the
path levels with the reversed bit decomposition; at each level fold the
compression with the current node on the side selected by the bit. -/
def recomputeRootLoop (compress : F → F → F) : List F → List Bool → F → F
  | [], _, current => current
  | _ :: _, [], current => current
  | path_elem :: rest, b :: bs, current =>
    recomputeRootLoop compress rest bs
      (if b = false then compress current path_elem else compress path_elem current)

/-- Modelled from the spec: the §4.2 `recomputeRoot` contract. -/
def recomputeRoot (compress : F → F → F) (path : List F) (index : F) (leaf : F) : F :=
  recomputeRootLoop compress path (FieldElement.bits index).reverse leaf

/-! ## The black-box opcode resolver (`pwg.rs`) -/

/-- The `MerkleMembership` arm of `solve_black_box_function_call`.  The
three leading `expect`s interleave with the operand reads, so a missing
input panics only after the earlier reads succeeded. -/
def solveMerkleMembership (eng : Engine) (m : WMap) (c : BlackBoxFuncCall) : SolveResult :=
  match c.inputs with
  | [] => none
  | [rt] =>
    match witness_to_value m rt.witness with
    | .error e => some (m, .error e)
    | .ok _ => none
  | [rt, lf] =>
    match witness_to_value m rt.witness with
    | .error e => some (m, .error e)
    | .ok _ =>
      match witness_to_value m lf.witness with
      | .error e => some (m, .error e)
      | .ok _ => none
  | rt :: lf :: idx :: rest =>
    match witness_to_value m rt.witness with
    | .error e => some (m, .error e)
    | .ok root =>
      match witness_to_value m lf.witness with
      | .error e => some (m, .error e)
      | .ok leaf =>
        match witness_to_value m idx.witness with
        | .error e => some (m, .error e)
        | .ok index =>
          match readValues m rest with
          | .error e => some (m, .error e)
          | .ok hash_path =>
            match calculate_merkle_root eng.compress_native hash_path index leaf with
            | none => none
            | some calculated =>
              match c.outputs with
              | [] => none
              | o :: _ =>
                some (wmInsert o (if calculated = root then fOne else fZero) m,
                  .ok .Solved)

/-- The `SchnorrVerify` arm of `solve_black_box_function_call`: two
public-key operands, 64 one-byte signature operands, the rest the
message; the signature loop reads the available operands before it can
panic on a missing one. -/
def solveSchnorrVerify (eng : Engine) (m : WMap) (c : BlackBoxFuncCall) : SolveResult :=
  match c.inputs with
  | [] => none
  | [pkx] =>
    match witness_to_value m pkx.witness with
    | .error e => some (m, .error e)
    | .ok _ => none
  | pkx :: pky :: rest =>
    match witness_to_value m pkx.witness with
    | .error e => some (m, .error e)
    | .ok vx =>
      match witness_to_value m pky.witness with
      | .error e => some (m, .error e)
      | .ok vy =>
        match readLowBytes m (rest.take 64) with
        | .error e => some (m, .error e)
        | .ok signature =>
          if rest.length < 64 then none
          else
            match readLowBytes m (rest.drop 64) with
            | .error e => some (m, .error e)
            | .ok message =>
              match c.outputs with
              | [] => none
              | o :: _ =>
                some (wmInsert o
                  (if eng.verify_signature
                      (FieldElement.to_be_bytes vx ++ FieldElement.to_be_bytes vy)
                      signature message
                   then fOne else fZero) m, .ok .Solved)

/-- The `Pedersen` arm of `solve_black_box_function_call`. -/
def solvePedersen (eng : Engine) (m : WMap) (c : BlackBoxFuncCall) : SolveResult :=
  match readValues m c.inputs with
  | .error e => some (m, .error e)
  | .ok scalars =>
    match c.outputs with
    | o1 :: o2 :: _ =>
      some (wmInsert o2 (eng.encrypt scalars).2 (wmInsert o1 (eng.encrypt scalars).1 m),
        .ok .Solved)
    | _ => none

/-- The `HashToField128Security` arm of `solve_black_box_function_call`:
stream the width-truncated bytes of every input into one digest, reduce
the digest modulo the field order, and require exactly one output slot
(`assert_eq!`). -/
def solveHashToField (eng : Engine) (m : WMap) (c : BlackBoxFuncCall) : SolveResult :=
  match readHtfBytes m c.inputs with
  | .error e => some (m, .error e)
  | .ok bytes =>
    match c.outputs with
    | [o] =>
      some (wmInsert o (FieldElement.from_be_bytes_reduce (eng.blake2s_digest bytes)) m,
        .ok .Solved)
    | _ => none

/-- The `FixedBaseScalarMul` arm of `solve_black_box_function_call`. -/
def solveFixedBaseScalarMul (eng : Engine) (m : WMap) (c : BlackBoxFuncCall) : SolveResult :=
  match c.inputs with
  | [] => none
  | i :: _ =>
    match witness_to_value m i.witness with
    | .error e => some (m, .error e)
    | .ok scalar =>
      match c.outputs with
      | o1 :: o2 :: _ =>
        some (wmInsert o2 (eng.fixed_base scalar).2 (wmInsert o1 (eng.fixed_base scalar).1 m),
          .ok .Solved)
      | _ => none

/-- Lift a delegated solver's outcome into the resolver's result: errors
propagate, success falls through to the final `Ok(OpcodeResolution::Solved)`. -/
def mapDelegate (r : DelegateResult) : SolveResult :=
  match r with
  | none => none
  | some (m', .error e) => some (m', .error e)
  | some (m', .ok _) => some (m', .ok .Solved)

/-- The resolver `solve_black_box_function_call`: dispatch one black-box call to its
resolution routine. -/
def solve_black_box_function_call (eng : Engine) (m : WMap) (c : BlackBoxFuncCall) :
    SolveResult :=
  match c.name with
  | .SHA256 => mapDelegate (eng.sha256_solver m c)
  | .Blake2s => mapDelegate (eng.blake2s_solver m c)
  | .EcdsaSecp256k1 => mapDelegate (eng.ecdsa_solver m c)
  | .AES => some (m, .error (.UnsupportedBlackBoxFunc c.name))
  | .Keccak256 => some (m, .error (.UnsupportedBlackBoxFunc c.name))
  | .MerkleMembership => solveMerkleMembership eng m c
  | .SchnorrVerify => solveSchnorrVerify eng m c
  | .Pedersen => solvePedersen eng m c
  | .HashToField128Security => solveHashToField eng m c
  | .FixedBaseScalarMul => solveFixedBaseScalarMul eng m c
  | .AND => mapDelegate (eng.logic_solver m c)
  | .XOR => mapDelegate (eng.logic_solver m c)
  | .RANGE => mapDelegate (eng.range_solver m c)

/-! ## The backend-compiler bridge (`proof_system.rs`) -/

/-- The predicate `black_box_function_supported`: the bridge's supported-opcode
predicate. -/
def black_box_function_supported (opcode : BlackBoxFuncPS) : Bool :=
  match opcode with
  | .AND
  | .XOR
  | .RANGE
  | .SHA256
  | .Blake2s
  | .ComputeMerkleRoot
  | .SchnorrVerify
  | .Pedersen
  | .HashToField128Security
  | .EcdsaSecp256k1
  | .FixedBaseScalarMul
  | .VerifyProof => true
  | .AES
  | .Keccak256 => false

/-- The function `flatten_witness_map`: the proving-side flattening — witness indices
`1 .. num_vars - 1`, zero-filling absent entries. -/
def flatten_witness_map (num_vars : Nat) (witness_values : WMap) : List F :=
  (List.range' 1 (num_vars - 1)).map
    (fun witness_index => (wmGet witness_values witness_index).getD fZero)

/-- The verifying-side flattening inside `verify_with_vk`:
`public_inputs.into_values().collect()` — present entries only, in
ascending witness-index order. -/
def flatten_public_inputs (public_inputs : WMap) : List F :=
  wmValues public_inputs

/-- Rust `slice::chunks(32)`: split a byte string into consecutive
windows of 32 bytes, the last window possibly shorter, an empty string
yielding no windows. -/
def chunks32 : List Nat → List (List Nat)
  | [] => []
  | b :: rest => ((b :: rest).take 32) :: chunks32 ((b :: rest).drop 32)
termination_by l => l.length
decreasing_by
  simp [List.length_drop]
  omega

/-- The field-chunk decoding shared by `proof_as_fields` and
`vk_as_fields`: each 32-byte window reduced modulo the field order. -/
def fields_from_bytes (bytes : List Nat) : List F :=
  (chunks32 bytes).map FieldElement.from_be_bytes_reduce

/-- The decoding loop of `proof_as_fields`, applied to the byte blob the
engine returns. -/
def proof_as_fields (proof_fields_as_bytes : List Nat) : List F :=
  fields_from_bytes proof_fields_as_bytes

/-- The decoding of `vk_as_fields`, applied to the byte blobs the engine
returns: the chunked key fields plus the reduced key hash. -/
def vk_as_fields (vk_fields_as_bytes : List Nat) (vk_hash_as_bytes : List Nat) :
    List F × F :=
  (fields_from_bytes vk_fields_as_bytes,
    FieldElement.from_be_bytes_reduce vk_hash_as_bytes)

/-! ## Helper lemmas -/

theorem merkleLoop_eq_recomputeRootLoop (hf : F → F → F) (ibits : List Bool) :
    ∀ (path : List F) (i : Nat) (current : F), i + path.length ≤ ibits.length →
      merkleLoop hf ibits path i current =
        some (recomputeRootLoop hf path (ibits.drop i) current) := by
  intro path
  induction path with
  | nil =>
    intro i current _
    simp [merkleLoop, recomputeRootLoop]
  | cons e rest ih =>
    intro i current h
    have hi : i < ibits.length := by
      simp only [List.length_cons] at h
      omega
    have hb : ibits[i]? = some ibits[i] := List.getElem?_eq_getElem hi
    have hdrop : ibits.drop i = ibits[i] :: ibits.drop (i + 1) :=
      List.drop_eq_getElem_cons hi
    have hrest : (i + 1) + rest.length ≤ ibits.length := by
      simp only [List.length_cons] at h
      omega
    rw [merkleLoop, hb, hdrop, recomputeRootLoop]
    cases hbit : ibits[i] with
    | false => simpa [hbit] using ih (i + 1) (hf current e) hrest
    | true => simpa [hbit] using ih (i + 1) (hf e current) hrest

/-! ## C1: the Merkle authentication-path recomputation -/

/-- C1: for every compression function, leaf, index and authentication
path whose length is at most the bit-length of the index's bit
decomposition, `calculate_merkle_root` returns exactly the spec fold
(reversed bit decomposition, bit 0 at the level nearest the leaf, current
node compressed on the side selected by each bit), totally, with no
internal error path. -/
theorem calculate_merkle_root_eq_recomputeRoot
    (hash_func : F → F → F) (hash_path : List F) (index : F) (leaf : F)
    (h : hash_path.length ≤ (FieldElement.bits index).length) :
    calculate_merkle_root hash_func hash_path index leaf =
      some (recomputeRoot hash_func hash_path index leaf) := by
  unfold calculate_merkle_root recomputeRoot
  have h0 : 0 + hash_path.length ≤ (FieldElement.bits index).reverse.length := by
    simpa using h
  simpa using merkleLoop_eq_recomputeRootLoop hash_func
    (FieldElement.bits index).reverse hash_path 0 leaf h0

/-- Witness for C1: a concrete compression function, two-level path,
index 2 and leaf 0 satisfy the precondition and the equation. -/
theorem calculate_merkle_root_eq_recomputeRoot_witness :
    [fOne, fZero].length ≤ (FieldElement.bits (mkF 2)).length ∧
      calculate_merkle_root (fun a _ => a) [fOne, fZero] (mkF 2) fZero =
        some (recomputeRoot (fun a _ => a) [fOne, fZero] (mkF 2) fZero) :=
  ⟨by simp [FieldElement.bits_length],
    calculate_merkle_root_eq_recomputeRoot (fun a _ => a) [fOne, fZero] (mkF 2) fZero
      (by simp [FieldElement.bits_length])⟩

/-! ## C2: the proving-side witness flattening -/

/-- C2: for every circuit variable count `N ≥ 1` and every witness map,
`flatten_witness_map` never fails and returns exactly `N - 1` field
elements; position `i` holds the map's value for witness `i + 1` when
present and the field additive identity when absent, present entries
copied unchanged. -/
theorem flatten_witness_map_spec (num_vars : Nat) (m : WMap) (h : 1 ≤ num_vars) :
    (flatten_witness_map num_vars m).length = num_vars - 1 ∧
    (∀ i v, i < num_vars - 1 → wmGet m (i + 1) = some v →
      (flatten_witness_map num_vars m)[i]? = some v) ∧
    (∀ i, i < num_vars - 1 → wmGet m (i + 1) = none →
      (flatten_witness_map num_vars m)[i]? = some fZero) := by
  have hpos : ∀ i, i < num_vars - 1 →
      (flatten_witness_map num_vars m)[i]? =
        some ((wmGet m (i + 1)).getD fZero) := by
    intro i hi
    unfold flatten_witness_map
    rw [List.getElem?_map, List.getElem?_range']
    · simp [hi, Nat.add_comm 1 i]
    · exact hi
  refine ⟨by simp [flatten_witness_map], ?_, ?_⟩
  · intro i v hi hv
    rw [hpos i hi, hv]
    rfl
  · intro i hi hv
    rw [hpos i hi, hv]
    rfl

/-- Witness for C2: three variables, a sparse map assigning only witness
2; the flattening has length 2, copies the present entry and zero-fills
the absent one. -/
theorem flatten_witness_map_spec_witness :
    (flatten_witness_map 3 [(2, fOne)]).length = 2 ∧
      (flatten_witness_map 3 [(2, fOne)])[1]? = some fOne ∧
      (flatten_witness_map 3 [(2, fOne)])[0]? = some fZero :=
  ⟨(flatten_witness_map_spec 3 [(2, fOne)] (by decide)).1,
    (flatten_witness_map_spec 3 [(2, fOne)] (by decide)).2.1 1 fOne (by decide) (by decide),
    (flatten_witness_map_spec 3 [(2, fOne)] (by decide)).2.2 0 (by decide) (by decide)⟩

/-! ## C3: the verifying-side flattening -/

/-- C3: the verifying-side flattening inside `verify_with_vk` produces
exactly the values of the present entries, in ascending witness-index
order, with no zero-filling: its length is the number of present entries,
the keys iterate in strictly ascending order, and a map with entries at
indices 1 and 3 but a gap at 2 flattens to the 2-element vector of those
two values. -/
theorem flatten_public_inputs_spec :
    (∀ (m : WMap), KeysSorted m →
        flatten_public_inputs m = m.map Prod.snd ∧
        (flatten_public_inputs m).length = m.length ∧
        List.Pairwise (· < ·) (wmKeys m)) ∧
    (∀ a b : F,
        flatten_public_inputs (wmInsert 3 b (wmInsert 1 a wmEmpty)) = [a, b]) := by
  constructor
  · intro m hm
    refine ⟨rfl, by simp [flatten_public_inputs, wmValues], ?_⟩
    exact (List.pairwise_map).mpr hm
  · intro a b
    rfl

/-- Witness for C3: a sorted two-entry map with a gap at index 2
satisfies the invariant, flattens to its two values in order, and the
concrete `{1, 3}` example evaluates to a 2-element vector. -/
theorem flatten_public_inputs_spec_witness :
    (KeysSorted [(1, fZero), (3, fOne)] ∧
        flatten_public_inputs [(1, fZero), (3, fOne)] = [fZero, fOne] ∧
        (flatten_public_inputs [(1, fZero), (3, fOne)]).length = 2) ∧
      flatten_public_inputs (wmInsert 3 fOne (wmInsert 1 fZero wmEmpty)) = [fZero, fOne] := by
  have hs : KeysSorted [(1, fZero), (3, fOne)] := by
    constructor
    · intro q hq
      rcases List.mem_cons.mp hq with h | h
      · simp [h]
      · simp at h
    · exact List.pairwise_singleton _ _
  have h1 := (flatten_public_inputs_spec.1 [(1, fZero), (3, fOne)] hs)
  exact ⟨⟨hs, h1.1, h1.2.1⟩, flatten_public_inputs_spec.2 fZero fOne⟩

/-! ## Field-chunk decoding lemmas (C9, C10) -/

theorem chunks32_nil : chunks32 [] = [] := by
  rw [chunks32]

theorem chunks32_cons (b : Nat) (rest : List Nat) :
    chunks32 (b :: rest) = ((b :: rest).take 32) :: chunks32 ((b :: rest).drop 32) := by
  rw [chunks32]

theorem getLast?_cons_of_ne_nil {α : Type} (a : α) {l : List α} (h : l ≠ []) :
    (a :: l).getLast? = l.getLast? := by
  cases l with
  | nil => exact absurd rfl h
  | cons b bs => exact List.getLast?_cons_cons

theorem chunks32_length_aux :
    ∀ (n : Nat) (bs : List Nat), bs.length ≤ n →
      (chunks32 bs).length = (bs.length + 31) / 32 := by
  intro n
  induction n with
  | zero =>
    intro bs h
    have hb : bs = [] := List.eq_nil_of_length_eq_zero (Nat.le_zero.mp h)
    subst hb
    rw [chunks32_nil]
    decide
  | succ k ih =>
    intro bs h
    cases bs with
    | nil =>
      rw [chunks32_nil]
      decide
    | cons b rest =>
      rw [chunks32_cons]
      have hd : ((b :: rest).drop 32).length ≤ k := by
        simp only [List.length_drop, List.length_cons]
        simp only [List.length_cons] at h
        omega
      rw [List.length_cons, ih _ hd]
      simp only [List.length_drop, List.length_cons]
      omega

theorem chunks32_length (bs : List Nat) :
    (chunks32 bs).length = (bs.length + 31) / 32 :=
  chunks32_length_aux bs.length bs le_rfl

theorem chunks32_closed :
    ∀ (k : Nat) (bs : List Nat), bs.length = 32 * k →
      chunks32 bs = (List.range k).map (fun j => (bs.drop (32 * j)).take 32) := by
  intro k
  induction k with
  | zero =>
    intro bs h
    have hb : bs = [] := List.eq_nil_of_length_eq_zero h
    subst hb
    rw [chunks32_nil]
    rfl
  | succ q ih =>
    intro bs h
    cases bs with
    | nil => simp at h
    | cons b rest =>
      rw [chunks32_cons]
      have hd : ((b :: rest).drop 32).length = 32 * q := by
        simp only [List.length_drop, List.length_cons]
        simp only [List.length_cons] at h
        omega
      rw [ih _ hd, List.range_succ_eq_map]
      rw [List.map_cons, List.map_map]
      refine List.cons_eq_cons.mpr ⟨by simp, ?_⟩
      apply List.map_congr_left
      intro j hj
      simp only [Function.comp_apply]
      rw [List.drop_drop]
      have harg : 32 + 32 * j = 32 * Nat.succ j := by omega
      rw [harg]

theorem chunks32_getLast_aux :
    ∀ (n : Nat) (bs : List Nat), bs.length ≤ n → bs.length % 32 ≠ 0 →
      (chunks32 bs).getLast? = some (bs.drop (32 * (bs.length / 32))) := by
  intro n
  induction n with
  | zero =>
    intro bs h hm
    have hb : bs = [] := List.eq_nil_of_length_eq_zero (Nat.le_zero.mp h)
    subst hb
    simp at hm
  | succ k ih =>
    intro bs h hm
    cases bs with
    | nil => simp at hm
    | cons b rest =>
      rw [chunks32_cons]
      have hLc : (b :: rest).length = rest.length + 1 := List.length_cons b rest
      by_cases hlen : (b :: rest).length ≤ 32
      · have hdrop : (b :: rest).drop 32 = [] := by
          apply List.eq_nil_of_length_eq_zero
          simp only [List.length_drop]
          omega
        have hq : (b :: rest).length / 32 = 0 := by
          rw [hLc] at hm ⊢
          omega
        rw [hdrop, hq, chunks32_nil]
        simp [List.take_of_length_le hlen]
      · have hne : (b :: rest).drop 32 ≠ [] := by
          intro hcon
          have hc := congrArg List.length hcon
          simp only [List.length_drop, List.length_nil] at hc
          omega
        have hle : ((b :: rest).drop 32).length ≤ k := by
          simp only [List.length_drop]
          omega
        have hmm : ((b :: rest).drop 32).length % 32 ≠ 0 := by
          simp only [List.length_drop]
          rw [hLc] at hm ⊢
          omega
        have hcne : chunks32 ((b :: rest).drop 32) ≠ [] := by
          cases hsh : (b :: rest).drop 32 with
          | nil => exact absurd hsh hne
          | cons d ds =>
            rw [chunks32_cons]
            exact List.cons_ne_nil _ _
        rw [getLast?_cons_of_ne_nil _ hcne, ih _ hle hmm, List.drop_drop]
        congr 2
        simp only [List.length_drop]
        rw [hLc] at hm ⊢
        omega

theorem chunks32_getLast (bs : List Nat) (hm : bs.length % 32 ≠ 0) :
    (chunks32 bs).getLast? = some (bs.drop (32 * (bs.length / 32))) :=
  chunks32_getLast_aux bs.length bs le_rfl hm

theorem getLast?_map_comm {α β : Type} (f : α → β) (l : List α) :
    (l.map f).getLast? = l.getLast?.map f := by
  induction l with
  | nil => rfl
  | cons a rest ih =>
    cases rest with
    | nil => rfl
    | cons b bs =>
      rw [List.map_cons, getLast?_cons_of_ne_nil _ (by simp), List.getLast?_cons_cons]
      exact ih

/-! ## C9: exact 32-byte chunk decoding -/

/-- C9: for every byte blob of length `32 * k`, the field-chunk decoding
shared by `proof_as_fields` and `vk_as_fields` yields exactly `k` field
elements, element `j` being the big-endian integer interpretation of the
window `[32 j, 32 j + 32)` reduced modulo the field order. -/
theorem fields_from_bytes_exact_chunks (bytes : List Nat) (k : Nat)
    (h : bytes.length = 32 * k) :
    proof_as_fields bytes = fields_from_bytes bytes ∧
    (∀ vk_hash_bytes, (vk_as_fields bytes vk_hash_bytes).1 = fields_from_bytes bytes) ∧
    (fields_from_bytes bytes).length = k ∧
    (∀ j, j < k → (fields_from_bytes bytes)[j]? =
      some (mkF (beNat ((bytes.drop (32 * j)).take 32)))) := by
  refine ⟨rfl, fun _ => rfl, ?_, ?_⟩
  · rw [fields_from_bytes, List.length_map, chunks32_length, h]
    omega
  · intro j hj
    rw [fields_from_bytes, chunks32_closed k bytes h, List.map_map, List.getElem?_map,
      List.getElem?_range hj]
    rfl

/-- Witness for C9: a 96-byte blob decodes into 3 field elements, the
last one matching the direct big-endian interpretation of the third
32-byte window. -/
theorem fields_from_bytes_exact_chunks_witness :
    (List.replicate 96 (7 : Nat)).length = 32 * 3 ∧
      (fields_from_bytes (List.replicate 96 (7 : Nat))).length = 3 ∧
      (fields_from_bytes (List.replicate 96 (7 : Nat)))[2]? =
        some (mkF (beNat (((List.replicate 96 (7 : Nat)).drop (32 * 2)).take 32))) :=
  ⟨by simp,
    (fields_from_bytes_exact_chunks (List.replicate 96 7) 3 (by simp)).2.2.1,
    (fields_from_bytes_exact_chunks (List.replicate 96 7) 3 (by simp)).2.2.2 2
      (by decide)⟩

/-! ## C10: trailing partial chunk decoding -/

/-- C10: for every byte blob whose length is not a multiple of 32, the
field-chunk decoding neither fails nor pads: it produces
`ceil(length / 32)` elements, and the last element is reduced from only
the final `length mod 32` bytes interpreted big-endian. -/
theorem fields_from_bytes_partial_chunk (bytes : List Nat)
    (h : bytes.length % 32 ≠ 0) :
    (fields_from_bytes bytes).length = (bytes.length + 31) / 32 ∧
    (bytes.drop (32 * (bytes.length / 32))).length = bytes.length % 32 ∧
    (fields_from_bytes bytes).getLast? =
      some (mkF (beNat (bytes.drop (32 * (bytes.length / 32))))) := by
  refine ⟨?_, ?_, ?_⟩
  · rw [fields_from_bytes, List.length_map, chunks32_length]
  · rw [List.length_drop]
    omega
  · rw [fields_from_bytes, getLast?_map_comm, chunks32_getLast bytes h]
    rfl

/-- Witness for C10: a 40-byte blob decodes into 2 field elements, the
last reduced from the final 8 bytes. -/
theorem fields_from_bytes_partial_chunk_witness :
    (List.replicate 40 (1 : Nat)).length % 32 ≠ 0 ∧
      (fields_from_bytes (List.replicate 40 (1 : Nat))).length =
        ((List.replicate 40 (1 : Nat)).length + 31) / 32 ∧
      ((List.replicate 40 (1 : Nat)).drop
          (32 * ((List.replicate 40 (1 : Nat)).length / 32))).length =
        (List.replicate 40 (1 : Nat)).length % 32 ∧
      (fields_from_bytes (List.replicate 40 (1 : Nat))).getLast? =
        some (mkF (beNat ((List.replicate 40 (1 : Nat)).drop
          (32 * ((List.replicate 40 (1 : Nat)).length / 32))))) :=
  ⟨by decide,
    (fields_from_bytes_partial_chunk (List.replicate 40 1) (by decide)).1,
    (fields_from_bytes_partial_chunk (List.replicate 40 1) (by decide)).2.1,
    (fields_from_bytes_partial_chunk (List.replicate 40 1) (by decide)).2.2⟩

/-! ## Resolved-operand read lemmas -/

/-- The value of a resolved operand (defaulting to zero, only used under
a resolvedness hypothesis). -/
def wvalD (m : WMap) (w : Nat) : F := (wmGet m w).getD fZero

theorem witness_to_value_resolved {m : WMap} {w : Nat}
    (h : (wmGet m w).isSome) : witness_to_value m w = .ok (wvalD m w) := by
  unfold witness_to_value wvalD
  cases hg : wmGet m w with
  | none => rw [hg] at h; simp at h
  | some v => simp

theorem readValues_resolved (m : WMap) :
    ∀ (ins : List FunctionInput), (∀ i ∈ ins, (wmGet m i.witness).isSome) →
      readValues m ins = .ok (ins.map (fun i => wvalD m i.witness)) := by
  intro ins h
  induction ins with
  | nil => rfl
  | cons i rest ih =>
    rw [readValues, witness_to_value_resolved (h i (by simp)),
      ih (fun j hj => h j (by simp [hj]))]
    rfl

theorem readLowBytes_resolved (m : WMap) :
    ∀ (ins : List FunctionInput), (∀ i ∈ ins, (wmGet m i.witness).isSome) →
      readLowBytes m ins = .ok (ins.map (fun i => lowByte (wvalD m i.witness))) := by
  intro ins h
  induction ins with
  | nil => rfl
  | cons i rest ih =>
    rw [readLowBytes, witness_to_value_resolved (h i (by simp)),
      ih (fun j hj => h j (by simp [hj]))]
    rfl

theorem readHtfBytes_resolved (m : WMap) :
    ∀ (ins : List FunctionInput), (∀ i ∈ ins, (wmGet m i.witness).isSome) →
      readHtfBytes m ins =
        .ok ((ins.map
          (fun i => FieldElement.fetch_nearest_bytes (wvalD m i.witness) i.num_bits)).flatten) := by
  intro ins h
  induction ins with
  | nil => rfl
  | cons i rest ih =>
    rw [readHtfBytes, witness_to_value_resolved (h i (by simp)),
      ih (fun j hj => h j (by simp [hj]))]
    rfl

/-- A concrete engine instance used to instantiate the universally
quantified theorems at evaluable inputs. -/
def engTest : Engine where
  compress_native := fun a _ => a
  verify_signature := fun _ _ _ => false
  encrypt := fun _ => (fZero, fZero)
  fixed_base := fun _ => (fZero, fZero)
  blake2s_digest := fun l => l
  sha256_solver := fun m _ => some (m, .ok ())
  blake2s_solver := fun m _ => some (m, .ok ())
  ecdsa_solver := fun m _ => some (m, .ok ())
  logic_solver := fun m _ => some (m, .ok ())
  range_solver := fun m _ => some (m, .ok ())

/-! ## C4: verification mismatches are outputs, not errors -/

/-- C4: for every `SchnorrVerify` or `MerkleMembership` call whose
operand witnesses are all resolved (and whose shape is well formed: the
fixed operands present, an output slot declared, the authentication path
within the index's bit decomposition), the resolver returns
`Ok(Solved)` and writes field one on a match and field zero on a
mismatch — a failed verification is not an error. -/
theorem solve_verification_mismatch_not_error :
    (∀ (eng : Engine) (m : WMap) (rt lf idx : FunctionInput)
        (rest : List FunctionInput) (o : Nat) (os : List Nat),
        (∀ i ∈ rt :: lf :: idx :: rest, (wmGet m i.witness).isSome) →
        rest.length ≤ 256 →
        solve_black_box_function_call eng m
            ⟨.MerkleMembership, rt :: lf :: idx :: rest, o :: os⟩ =
          some (wmInsert o
            (if recomputeRoot eng.compress_native
                  (rest.map (fun i => wvalD m i.witness))
                  (wvalD m idx.witness) (wvalD m lf.witness) = wvalD m rt.witness
             then fOne else fZero) m, .ok .Solved)) ∧
    (∀ (eng : Engine) (m : WMap) (pkx pky : FunctionInput)
        (rest : List FunctionInput) (o : Nat) (os : List Nat),
        (∀ i ∈ pkx :: pky :: rest, (wmGet m i.witness).isSome) →
        64 ≤ rest.length →
        solve_black_box_function_call eng m
            ⟨.SchnorrVerify, pkx :: pky :: rest, o :: os⟩ =
          some (wmInsert o
            (if eng.verify_signature
                (FieldElement.to_be_bytes (wvalD m pkx.witness) ++
                  FieldElement.to_be_bytes (wvalD m pky.witness))
                ((rest.take 64).map (fun i => lowByte (wvalD m i.witness)))
                ((rest.drop 64).map (fun i => lowByte (wvalD m i.witness)))
             then fOne else fZero) m, .ok .Solved)) := by
  constructor
  · intro eng m rt lf idx rest o os hres hlen
    have hcalc : calculate_merkle_root eng.compress_native
        (rest.map (fun i => wvalD m i.witness)) (wvalD m idx.witness) (wvalD m lf.witness) =
        some (recomputeRoot eng.compress_native (rest.map (fun i => wvalD m i.witness))
          (wvalD m idx.witness) (wvalD m lf.witness)) := by
      unfold calculate_merkle_root recomputeRoot
      have h0 : 0 + (rest.map (fun i => wvalD m i.witness)).length ≤
          (FieldElement.bits (wvalD m idx.witness)).reverse.length := by
        simp [FieldElement.bits_length]
        omega
      simpa using merkleLoop_eq_recomputeRootLoop eng.compress_native
        (FieldElement.bits (wvalD m idx.witness)).reverse
        (rest.map (fun i => wvalD m i.witness)) 0 (wvalD m lf.witness) h0
    simp only [solve_black_box_function_call, solveMerkleMembership,
      witness_to_value_resolved (hres rt (by simp)),
      witness_to_value_resolved (hres lf (by simp)),
      witness_to_value_resolved (hres idx (by simp)),
      readValues_resolved m rest (fun j hj => hres j (by simp [hj])), hcalc]
  · intro eng m pkx pky rest o os hres hlen
    have hsig : readLowBytes m (rest.take 64) =
        .ok ((rest.take 64).map (fun i => lowByte (wvalD m i.witness))) :=
      readLowBytes_resolved m _ (fun j hj => hres j (by
        have := List.take_subset 64 rest hj
        simp [this]))
    have hmsg : readLowBytes m (rest.drop 64) =
        .ok ((rest.drop 64).map (fun i => lowByte (wvalD m i.witness))) :=
      readLowBytes_resolved m _ (fun j hj => hres j (by
        have := List.drop_subset 64 rest hj
        simp [this]))
    have hnl : ¬(rest.length < 64) := by omega
    simp only [solve_black_box_function_call, solveSchnorrVerify,
      witness_to_value_resolved (hres pkx (by simp)),
      witness_to_value_resolved (hres pky (by simp)),
      hsig, hmsg, if_neg hnl]

/-- Witness for C4: concrete `MerkleMembership` and `SchnorrVerify` calls
on resolved operands resolve to `Ok(Solved)` with the boolean field
output. -/
theorem solve_verification_mismatch_not_error_witness :
    solve_black_box_function_call engTest [(1, fZero)]
        ⟨.MerkleMembership, [⟨1, 32⟩, ⟨1, 32⟩, ⟨1, 32⟩], [2]⟩ =
      some (wmInsert 2
        (if recomputeRoot engTest.compress_native
              (([] : List FunctionInput).map (fun i => wvalD [(1, fZero)] i.witness))
              (wvalD [(1, fZero)] 1) (wvalD [(1, fZero)] 1) = wvalD [(1, fZero)] 1
         then fOne else fZero) [(1, fZero)], .ok .Solved) ∧
    solve_black_box_function_call engTest [(1, fZero)]
        ⟨.SchnorrVerify,
          ⟨1, 8⟩ :: ⟨1, 8⟩ :: List.replicate 64 ⟨1, 8⟩, [2]⟩ =
      some (wmInsert 2
        (if engTest.verify_signature
            (FieldElement.to_be_bytes (wvalD [(1, fZero)] 1) ++
              FieldElement.to_be_bytes (wvalD [(1, fZero)] 1))
            (((List.replicate 64 (⟨1, 8⟩ : FunctionInput)).take 64).map
              (fun i => lowByte (wvalD [(1, fZero)] i.witness)))
            (((List.replicate 64 (⟨1, 8⟩ : FunctionInput)).drop 64).map
              (fun i => lowByte (wvalD [(1, fZero)] i.witness)))
         then fOne else fZero) [(1, fZero)], .ok .Solved) :=
  ⟨solve_verification_mismatch_not_error.1 engTest [(1, fZero)]
      ⟨1, 32⟩ ⟨1, 32⟩ ⟨1, 32⟩ [] 2 [] (by decide) (by decide),
    solve_verification_mismatch_not_error.2 engTest [(1, fZero)]
      ⟨1, 8⟩ ⟨1, 8⟩ (List.replicate 64 ⟨1, 8⟩) 2 [] (by decide) (by decide)⟩

/-! ## Error-path characterization lemmas -/

theorem witness_to_value_error {m : WMap} {w : Nat} {e : OpcodeResolutionError}
    (h : witness_to_value m w = .error e) :
    ∃ u, e = .UnresolvedOperand u ∧ wmGet m u = none := by
  unfold witness_to_value at h
  cases hg : wmGet m w with
  | none =>
    simp only [hg] at h
    injection h with h'
    exact ⟨w, h'.symm, hg⟩
  | some v =>
    simp only [hg] at h
    exact Except.noConfusion h

theorem readValues_error {m : WMap} :
    ∀ {ins : List FunctionInput} {e : OpcodeResolutionError},
      readValues m ins = .error e →
      ∃ u, e = .UnresolvedOperand u ∧ wmGet m u = none := by
  intro ins
  induction ins with
  | nil =>
    intro e h
    simp [readValues] at h
  | cons i rest ih =>
    intro e h
    rw [readValues] at h
    cases hv : witness_to_value m i.witness with
    | error e1 =>
      simp only [hv] at h
      injection h with h'
      exact h' ▸ witness_to_value_error hv
    | ok v =>
      simp only [hv] at h
      cases hr : readValues m rest with
      | error e2 =>
        simp only [hr] at h
        injection h with h'
        exact h' ▸ ih hr
      | ok vs =>
        simp only [hr] at h
        exact Except.noConfusion h

theorem readLowBytes_error {m : WMap} :
    ∀ {ins : List FunctionInput} {e : OpcodeResolutionError},
      readLowBytes m ins = .error e →
      ∃ u, e = .UnresolvedOperand u ∧ wmGet m u = none := by
  intro ins
  induction ins with
  | nil =>
    intro e h
    simp [readLowBytes] at h
  | cons i rest ih =>
    intro e h
    rw [readLowBytes] at h
    cases hv : witness_to_value m i.witness with
    | error e1 =>
      simp only [hv] at h
      injection h with h'
      exact h' ▸ witness_to_value_error hv
    | ok v =>
      simp only [hv] at h
      cases hr : readLowBytes m rest with
      | error e2 =>
        simp only [hr] at h
        injection h with h'
        exact h' ▸ ih hr
      | ok vs =>
        simp only [hr] at h
        exact Except.noConfusion h

theorem readHtfBytes_error {m : WMap} :
    ∀ {ins : List FunctionInput} {e : OpcodeResolutionError},
      readHtfBytes m ins = .error e →
      ∃ u, e = .UnresolvedOperand u ∧ wmGet m u = none := by
  intro ins
  induction ins with
  | nil =>
    intro e h
    simp [readHtfBytes] at h
  | cons i rest ih =>
    intro e h
    rw [readHtfBytes] at h
    cases hv : witness_to_value m i.witness with
    | error e1 =>
      simp only [hv] at h
      injection h with h'
      exact h' ▸ witness_to_value_error hv
    | ok v =>
      simp only [hv] at h
      cases hr : readHtfBytes m rest with
      | error e2 =>
        simp only [hr] at h
        injection h with h'
        exact h' ▸ ih hr
      | ok vs =>
        simp only [hr] at h
        exact Except.noConfusion h

theorem solveMerkleMembership_error_inv (eng : Engine) (m : WMap) (c : BlackBoxFuncCall)
    (m' : WMap) (e : OpcodeResolutionError)
    (h : solveMerkleMembership eng m c = some (m', .error e)) :
    m' = m ∧ ∃ u, e = .UnresolvedOperand u ∧ wmGet m u = none := by
  unfold solveMerkleMembership at h
  repeat' split at h
  all_goals
    first
      | exact Option.noConfusion h
      | (simp only [Option.some.injEq, Prod.mk.injEq] at h
         rcases h with ⟨h1, h2⟩
         first
           | exact absurd h2 (fun hcon => Except.noConfusion hcon)
           | (injection h2 with h3
              exact ⟨h1.symm, h3 ▸ witness_to_value_error (by assumption)⟩)
           | (injection h2 with h3
              exact ⟨h1.symm, h3 ▸ readValues_error (by assumption)⟩))

theorem solveSchnorrVerify_error_inv (eng : Engine) (m : WMap) (c : BlackBoxFuncCall)
    (m' : WMap) (e : OpcodeResolutionError)
    (h : solveSchnorrVerify eng m c = some (m', .error e)) :
    m' = m ∧ ∃ u, e = .UnresolvedOperand u ∧ wmGet m u = none := by
  unfold solveSchnorrVerify at h
  repeat' split at h
  all_goals
    first
      | exact Option.noConfusion h
      | (simp only [Option.some.injEq, Prod.mk.injEq] at h
         rcases h with ⟨h1, h2⟩
         first
           | exact absurd h2 (fun hcon => Except.noConfusion hcon)
           | (injection h2 with h3
              exact ⟨h1.symm, h3 ▸ witness_to_value_error (by assumption)⟩)
           | (injection h2 with h3
              exact ⟨h1.symm, h3 ▸ readLowBytes_error (by assumption)⟩))

theorem solvePedersen_error_inv (eng : Engine) (m : WMap) (c : BlackBoxFuncCall)
    (m' : WMap) (e : OpcodeResolutionError)
    (h : solvePedersen eng m c = some (m', .error e)) :
    m' = m ∧ ∃ u, e = .UnresolvedOperand u ∧ wmGet m u = none := by
  unfold solvePedersen at h
  repeat' split at h
  all_goals
    first
      | exact Option.noConfusion h
      | (simp only [Option.some.injEq, Prod.mk.injEq] at h
         rcases h with ⟨h1, h2⟩
         first
           | exact absurd h2 (fun hcon => Except.noConfusion hcon)
           | (injection h2 with h3
              exact ⟨h1.symm, h3 ▸ readValues_error (by assumption)⟩))

theorem solveHashToField_error_inv (eng : Engine) (m : WMap) (c : BlackBoxFuncCall)
    (m' : WMap) (e : OpcodeResolutionError)
    (h : solveHashToField eng m c = some (m', .error e)) :
    m' = m ∧ ∃ u, e = .UnresolvedOperand u ∧ wmGet m u = none := by
  unfold solveHashToField at h
  repeat' split at h
  all_goals
    first
      | exact Option.noConfusion h
      | (simp only [Option.some.injEq, Prod.mk.injEq] at h
         rcases h with ⟨h1, h2⟩
         first
           | exact absurd h2 (fun hcon => Except.noConfusion hcon)
           | (injection h2 with h3
              exact ⟨h1.symm, h3 ▸ readHtfBytes_error (by assumption)⟩))

theorem solveFixedBaseScalarMul_error_inv (eng : Engine) (m : WMap) (c : BlackBoxFuncCall)
    (m' : WMap) (e : OpcodeResolutionError)
    (h : solveFixedBaseScalarMul eng m c = some (m', .error e)) :
    m' = m ∧ ∃ u, e = .UnresolvedOperand u ∧ wmGet m u = none := by
  unfold solveFixedBaseScalarMul at h
  repeat' split at h
  all_goals
    first
      | exact Option.noConfusion h
      | (simp only [Option.some.injEq, Prod.mk.injEq] at h
         rcases h with ⟨h1, h2⟩
         first
           | exact absurd h2 (fun hcon => Except.noConfusion hcon)
           | (injection h2 with h3
              exact ⟨h1.symm, h3 ▸ witness_to_value_error (by assumption)⟩))

theorem mapDelegate_error_inv {r : DelegateResult} {m' : WMap} {e : OpcodeResolutionError}
    (h : mapDelegate r = some (m', .error e)) : r = some (m', .error e) := by
  cases r with
  | none => exact Option.noConfusion h
  | some pr =>
    obtain ⟨mm, res⟩ := pr
    cases res with
    | error ee =>
      simp only [mapDelegate, Option.some.injEq, Prod.mk.injEq] at h
      obtain ⟨h1, h2⟩ := h
      injection h2 with h3
      rw [h1, h3]
    | ok u =>
      simp only [mapDelegate] at h
      simp at h

/-! ## C6: error atomicity of one resolution -/

/-- A delegated solver is atomic: an error return leaves the map as it
was (the map a delegate hands back with an error equals its input). -/
def DelegateAtomic (d : Delegate) : Prop :=
  ∀ m c m' e, d m c = some (m', .error e) → m' = m

/-- All five delegated acvm solvers of an engine are atomic. -/
def EngineDelegatesAtomic (eng : Engine) : Prop :=
  DelegateAtomic eng.sha256_solver ∧ DelegateAtomic eng.blake2s_solver ∧
    DelegateAtomic eng.ecdsa_solver ∧ DelegateAtomic eng.logic_solver ∧
    DelegateAtomic eng.range_solver

/-- C6: resolution of one black-box call is atomic with respect to the
witness map: whenever `solve_black_box_function_call` returns an error
(for an engine whose delegated solvers are themselves atomic), the
witness map is exactly as it was before the call — every fallible operand
read happens before any output write. -/
theorem solve_error_atomic (eng : Engine) (hd : EngineDelegatesAtomic eng)
    (m : WMap) (c : BlackBoxFuncCall) (m' : WMap) (e : OpcodeResolutionError)
    (h : solve_black_box_function_call eng m c = some (m', .error e)) : m' = m := by
  obtain ⟨hsha, hbla, hecd, hlog, hrng⟩ := hd
  unfold solve_black_box_function_call at h
  split at h
  all_goals
    first
      | exact (solveMerkleMembership_error_inv eng m c m' e h).1
      | exact (solveSchnorrVerify_error_inv eng m c m' e h).1
      | exact (solvePedersen_error_inv eng m c m' e h).1
      | exact (solveHashToField_error_inv eng m c m' e h).1
      | exact (solveFixedBaseScalarMul_error_inv eng m c m' e h).1
      | exact hsha m c m' e (mapDelegate_error_inv h)
      | exact hbla m c m' e (mapDelegate_error_inv h)
      | exact hecd m c m' e (mapDelegate_error_inv h)
      | exact hlog m c m' e (mapDelegate_error_inv h)
      | exact hrng m c m' e (mapDelegate_error_inv h)
      | (simp only [Option.some.injEq, Prod.mk.injEq] at h
         exact h.1.symm)

/-- Witness for C6: the test engine's delegates are atomic, and the
erroring `AES` call leaves the concrete map untouched. -/
theorem solve_error_atomic_witness :
    EngineDelegatesAtomic engTest ∧
      solve_black_box_function_call engTest [(1, fZero)] ⟨.AES, [], []⟩ =
        some ([(1, fZero)], .error (.UnsupportedBlackBoxFunc .AES)) ∧
      ([(1, fZero)] : WMap) = [(1, fZero)] := by
  have hd : EngineDelegatesAtomic engTest := by
    refine ⟨?_, ?_, ?_, ?_, ?_⟩ <;>
      (intro m c m' e h
       simp [engTest] at h)
  exact ⟨hd, rfl,
    solve_error_atomic engTest hd [(1, fZero)] ⟨.AES, [], []⟩ [(1, fZero)]
      (.UnsupportedBlackBoxFunc .AES) rfl⟩

/-! ## C7: supported-opcode predicate versus the resolver -/

/-- A delegated solver never reports an unsupported-opcode error (the
acvm solvers implement their opcode). -/
def DelegateNoUnsupported (d : Delegate) : Prop :=
  ∀ m c m' e, d m c = some (m', .error e) →
    ∀ f, e ≠ .UnsupportedBlackBoxFunc f

/-- All five delegated acvm solvers of an engine never report an
unsupported-opcode error. -/
def EngineDelegatesNoUnsupported (eng : Engine) : Prop :=
  DelegateNoUnsupported eng.sha256_solver ∧ DelegateNoUnsupported eng.blake2s_solver ∧
    DelegateNoUnsupported eng.ecdsa_solver ∧ DelegateNoUnsupported eng.logic_solver ∧
    DelegateNoUnsupported eng.range_solver

/-- C7: the bridge's supported-opcode predicate agrees with the
resolver: `black_box_function_supported` is false exactly on AES and
Keccak256; under the renaming of resolver kinds into bridge kinds it is
true exactly on the kinds the resolver does not reject; and (for engines
whose delegates never fabricate the error) the resolver returns
`UnsupportedBlackBoxFunc` exactly on AES and Keccak256 calls. -/
theorem supported_iff_resolver :
    (∀ k : BlackBoxFuncPS,
        black_box_function_supported k = false ↔ (k = .AES ∨ k = .Keccak256)) ∧
    (∀ k : BlackBoxFunc,
        black_box_function_supported (corr k) = true ↔ ¬(k = .AES ∨ k = .Keccak256)) ∧
    (∀ (eng : Engine), EngineDelegatesNoUnsupported eng →
      ∀ (m : WMap) (c : BlackBoxFuncCall),
        (∃ m' f, solve_black_box_function_call eng m c =
            some (m', .error (.UnsupportedBlackBoxFunc f))) ↔
          (c.name = .AES ∨ c.name = .Keccak256)) := by
  refine ⟨fun k => by cases k <;> decide, fun k => by cases k <;> decide, ?_⟩
  intro eng hd m c
  obtain ⟨hsha, hbla, hecd, hlog, hrng⟩ := hd
  constructor
  · rintro ⟨m', f, h⟩
    unfold solve_black_box_function_call at h
    split at h
    all_goals
      first
        | (left; assumption)
        | (right; assumption)
        | exact absurd rfl (hsha m c m' _ (mapDelegate_error_inv h) f)
        | exact absurd rfl (hbla m c m' _ (mapDelegate_error_inv h) f)
        | exact absurd rfl (hecd m c m' _ (mapDelegate_error_inv h) f)
        | exact absurd rfl (hlog m c m' _ (mapDelegate_error_inv h) f)
        | exact absurd rfl (hrng m c m' _ (mapDelegate_error_inv h) f)
        | (obtain ⟨u, hu, _⟩ := (solveMerkleMembership_error_inv eng m c m' _ h).2
           exact OpcodeResolutionError.noConfusion hu)
        | (obtain ⟨u, hu, _⟩ := (solveSchnorrVerify_error_inv eng m c m' _ h).2
           exact OpcodeResolutionError.noConfusion hu)
        | (obtain ⟨u, hu, _⟩ := (solvePedersen_error_inv eng m c m' _ h).2
           exact OpcodeResolutionError.noConfusion hu)
        | (obtain ⟨u, hu, _⟩ := (solveHashToField_error_inv eng m c m' _ h).2
           exact OpcodeResolutionError.noConfusion hu)
        | (obtain ⟨u, hu, _⟩ := (solveFixedBaseScalarMul_error_inv eng m c m' _ h).2
           exact OpcodeResolutionError.noConfusion hu)
  · rintro (hn | hn) <;>
      (refine ⟨m, c.name, ?_⟩
       unfold solve_black_box_function_call
       simp only [hn])

/-- Witness for C7: the test engine's delegates never fabricate the
unsupported error, and the equivalence holds at a concrete AES call. -/
theorem supported_iff_resolver_witness :
    EngineDelegatesNoUnsupported engTest ∧
      ((∃ m' f, solve_black_box_function_call engTest wmEmpty ⟨.AES, [], []⟩ =
          some (m', .error (.UnsupportedBlackBoxFunc f))) ↔
        ((⟨.AES, [], []⟩ : BlackBoxFuncCall).name = .AES ∨
          (⟨.AES, [], []⟩ : BlackBoxFuncCall).name = .Keccak256)) := by
  have hd : EngineDelegatesNoUnsupported engTest := by
    refine ⟨?_, ?_, ?_, ?_, ?_⟩ <;>
      (intro m c m' e h
       simp [engTest] at h)
  exact ⟨hd, supported_iff_resolver.2.2 engTest hd wmEmpty ⟨.AES, [], []⟩⟩

/-! ## C5: wrong arity panics instead of returning MalformedOperandCount -/

/-- Counterexample to C5: a `MerkleMembership` call with zero inputs
(fewer than three) makes `solve_black_box_function_call` panic (`none`,
the `expect` abort) — it does not return the
`MalformedOperandCount(kind, expected, got)` error the claim states. -/
theorem solve_malformed_arity_counterexample :
    solve_black_box_function_call engTest wmEmpty ⟨.MerkleMembership, [], [1]⟩ = none ∧
      solve_black_box_function_call engTest wmEmpty ⟨.MerkleMembership, [], [1]⟩ ≠
        some (wmEmpty, .error (.MalformedOperandCount .MerkleMembership 3 0)) := by
  constructor
  · rfl
  · intro hcon
    have h0 : (none : SolveResult) =
        some (wmEmpty, .error (.MalformedOperandCount .MerkleMembership 3 0)) := hcon
    exact Option.noConfusion h0

/-- C5 (amended): for fixed-arity kinds with wrong input or output
counts — `MerkleMembership` with fewer than three inputs,
`SchnorrVerify` with fewer than the 2 public-key plus 64 signature
inputs, `HashToField128Security` with an output count other than one —
the resolver panics (aborts via `expect`/`panic!`/`assert_eq!`, modelled
as `none`) once the operands that are present have been read; it never
returns a `MalformedOperandCount` error. -/
theorem solve_malformed_arity_panics :
    (∀ (eng : Engine) (m : WMap) (c : BlackBoxFuncCall), c.name = .MerkleMembership →
      (∀ i ∈ c.inputs, (wmGet m i.witness).isSome) → c.inputs.length < 3 →
      solve_black_box_function_call eng m c = none) ∧
    (∀ (eng : Engine) (m : WMap) (c : BlackBoxFuncCall), c.name = .SchnorrVerify →
      (∀ i ∈ c.inputs, (wmGet m i.witness).isSome) → c.inputs.length < 66 →
      solve_black_box_function_call eng m c = none) ∧
    (∀ (eng : Engine) (m : WMap) (c : BlackBoxFuncCall), c.name = .HashToField128Security →
      (∀ i ∈ c.inputs, (wmGet m i.witness).isSome) → c.outputs.length ≠ 1 →
      solve_black_box_function_call eng m c = none) := by
  refine ⟨?_, ?_, ?_⟩
  · intro eng m c hname hres hlen
    obtain ⟨nm, ins, outs⟩ := c
    simp only at hname hres hlen
    subst hname
    match ins, hres, hlen with
    | [], _, _ => rfl
    | [rt], hres, _ =>
      simp only [solve_black_box_function_call, solveMerkleMembership,
        witness_to_value_resolved (hres rt (by simp))]
    | [rt, lf], hres, _ =>
      simp only [solve_black_box_function_call, solveMerkleMembership,
        witness_to_value_resolved (hres rt (by simp)),
        witness_to_value_resolved (hres lf (by simp))]
    | rt :: lf :: idx :: rest, _, hlen =>
      simp only [List.length_cons] at hlen
      omega
  · intro eng m c hname hres hlen
    obtain ⟨nm, ins, outs⟩ := c
    simp only at hname hres hlen
    subst hname
    match ins, hres, hlen with
    | [], _, _ => rfl
    | [pkx], hres, _ =>
      simp only [solve_black_box_function_call, solveSchnorrVerify,
        witness_to_value_resolved (hres pkx (by simp))]
    | pkx :: pky :: rest, hres, hlen =>
      have hr : rest.length < 64 := by
        simp only [List.length_cons] at hlen
        omega
      simp only [solve_black_box_function_call, solveSchnorrVerify,
        witness_to_value_resolved (hres pkx (by simp)),
        witness_to_value_resolved (hres pky (by simp)),
        readLowBytes_resolved m (rest.take 64) (fun j hj => hres j (by
          have hsub := List.take_subset 64 rest hj
          simp [hsub])),
        if_pos hr]
  · intro eng m c hname hres hlen
    obtain ⟨nm, ins, outs⟩ := c
    simp only at hname hres hlen
    subst hname
    simp only [solve_black_box_function_call, solveHashToField,
      readHtfBytes_resolved m ins hres]
    match outs, hlen with
    | [], _ => rfl
    | [o], hlen => exact absurd rfl hlen
    | o1 :: o2 :: orest, _ => rfl

/-- Witness for C5 (amended): concrete malformed calls with resolved
operands panic for each of the three kinds. -/
theorem solve_malformed_arity_panics_witness :
    solve_black_box_function_call engTest [(1, fZero)]
        ⟨.MerkleMembership, [⟨1, 32⟩], [2]⟩ = none ∧
      solve_black_box_function_call engTest [(1, fZero)]
        ⟨.SchnorrVerify, [⟨1, 8⟩, ⟨1, 8⟩], [2]⟩ = none ∧
      solve_black_box_function_call engTest [(1, fZero)]
        ⟨.HashToField128Security, [⟨1, 8⟩], []⟩ = none :=
  ⟨solve_malformed_arity_panics.1 engTest [(1, fZero)]
      ⟨.MerkleMembership, [⟨1, 32⟩], [2]⟩ rfl (by decide) (by decide),
    solve_malformed_arity_panics.2.1 engTest [(1, fZero)]
      ⟨.SchnorrVerify, [⟨1, 8⟩, ⟨1, 8⟩], [2]⟩ rfl (by decide) (by decide),
    solve_malformed_arity_panics.2.2 engTest [(1, fZero)]
      ⟨.HashToField128Security, [⟨1, 8⟩], []⟩ rfl (by decide) (by decide)⟩

/-! ## C8: the hash-to-field byte semantics -/

theorem natToBE_drop_last (k v : Nat) : (natToBE (k + 1) v).drop k = [v % 256] := by
  have hdl := List.drop_left (natToBE k (v / 256)) [v % 256]
  rw [natToBE_length] at hdl
  rw [natToBE]
  exact hdl

/-- A value below 256 declared with bit width 8 truncates to exactly its
raw byte. -/
theorem fetch_nearest_bytes_width_eight {n : Nat} (h : n < 256) :
    FieldElement.fetch_nearest_bytes (mkF n) 8 = [n] := by
  have hv : (mkF n).val = n := Nat.mod_eq_of_lt (lt_trans h (by decide))
  have h8 : (32 : Nat) - (8 + 7) / 8 = 31 := by decide
  rw [FieldElement.fetch_nearest_bytes, FieldElement.to_be_bytes, hv, h8]
  have hd := natToBE_drop_last 31 n
  rw [Nat.mod_eq_of_lt h] at hd
  exact hd

/-- The resolved-operand equation of the `HashToField128Security` arm,
shared between the claim theorem and its scenario instance. -/
theorem solveHashToField_resolved (eng : Engine) (m : WMap)
    (ins : List FunctionInput) (o : Nat)
    (hres : ∀ i ∈ ins, (wmGet m i.witness).isSome) :
    solve_black_box_function_call eng m ⟨.HashToField128Security, ins, [o]⟩ =
      some (wmInsert o
        (FieldElement.from_be_bytes_reduce (eng.blake2s_digest
          ((ins.map (fun i =>
            FieldElement.fetch_nearest_bytes (wvalD m i.witness) i.num_bits)).flatten))) m,
        .ok .Solved) := by
  simp only [solve_black_box_function_call, solveHashToField,
    readHtfBytes_resolved m ins hres]

/-- C8: for every `HashToField128Security` call with resolved operands
and one output slot, the written output is the digest of the
concatenation, input by input, of each value's bytes truncated to the
nearest whole number of bytes containing its declared bit width, reduced
modulo the field order; in particular two single-byte inputs each
declared with bit width 8 hash exactly the two raw bytes. -/
theorem solve_hash_to_field_spec :
    (∀ (eng : Engine) (m : WMap) (ins : List FunctionInput) (o : Nat),
      (∀ i ∈ ins, (wmGet m i.witness).isSome) →
      solve_black_box_function_call eng m ⟨.HashToField128Security, ins, [o]⟩ =
        some (wmInsert o
          (FieldElement.from_be_bytes_reduce (eng.blake2s_digest
            ((ins.map (fun i =>
              FieldElement.fetch_nearest_bytes (wvalD m i.witness) i.num_bits)).flatten))) m,
          .ok .Solved)) ∧
    (∀ (eng : Engine) (b1 b2 : Nat), b1 < 256 → b2 < 256 →
      solve_black_box_function_call eng [(1, mkF b1), (2, mkF b2)]
          ⟨.HashToField128Security, [⟨1, 8⟩, ⟨2, 8⟩], [3]⟩ =
        some (wmInsert 3
          (FieldElement.from_be_bytes_reduce (eng.blake2s_digest [b1, b2]))
          [(1, mkF b1), (2, mkF b2)], .ok .Solved)) := by
  constructor
  · intro eng m ins o hres
    exact solveHashToField_resolved eng m ins o hres
  · intro eng b1 b2 h1 h2
    have hres : ∀ i ∈ [(⟨1, 8⟩ : FunctionInput), ⟨2, 8⟩],
        (wmGet [(1, mkF b1), (2, mkF b2)] i.witness).isSome := by
      intro i hi
      rcases List.mem_cons.mp hi with h | h
      · simp [h, wmGet]
      · simp only [List.mem_singleton] at h
        simp [h, wmGet]
    have heq := solveHashToField_resolved eng [(1, mkF b1), (2, mkF b2)]
      [⟨1, 8⟩, ⟨2, 8⟩] 3 hres
    rw [heq]
    have hw1 : wvalD [(1, mkF b1), (2, mkF b2)] 1 = mkF b1 := by
      simp [wvalD, wmGet]
    have hw2 : wvalD [(1, mkF b1), (2, mkF b2)] 2 = mkF b2 := by
      simp [wvalD, wmGet]
    simp only [List.map_cons, List.map_nil, hw1, hw2,
      fetch_nearest_bytes_width_eight h1, fetch_nearest_bytes_width_eight h2]
    rfl

/-- Witness for C8: concrete single-byte inputs 5 and 9 with the test
engine's digest hash to the reduction of the two raw bytes. -/
theorem solve_hash_to_field_spec_witness :
    solve_black_box_function_call engTest [(1, mkF 5), (2, mkF 9)]
        ⟨.HashToField128Security, [⟨1, 8⟩, ⟨2, 8⟩], [3]⟩ =
      some (wmInsert 3
        (FieldElement.from_be_bytes_reduce (engTest.blake2s_digest [5, 9]))
        [(1, mkF 5), (2, mkF 9)], .ok .Solved) :=
  solve_hash_to_field_spec.2 engTest 5 9 (by decide) (by decide)
